import Mathlib

/-!
Shallow embedding of the QuikTalk chat application (Python) in Lean 4.

The embedding models:
* Python `dict` as an association list (`alookup`, `dinsert`, `dremove`):
  insertion replaces the value of an existing key in place, otherwise
  appends; removal deletes the binding of a key.
* Python `set` of strings as a duplicate-free list (`setAdd`, `setDiscard`).
* Wall-clock values (`time.time()`, `datetime.now()`) as explicit `Nat`
  parameters supplied by the caller.
* Exceptions as `Except`, `Option`, or explicit result values.
-/

namespace ChatApp

/-- Python `d.get(k)` / `d[k]` on a dict modelled as an association list:
the value bound to the first (hence, with unique keys, the only)
occurrence of the key. -/
def alookup {κ β : Type} [DecidableEq κ] (k : κ) : List (κ × β) → Option β
  | [] => none
  | (k₂, v) :: rest => if k = k₂ then some v else alookup k rest

/-- Python `d[k] = v`: replace the value at an existing key in place,
otherwise append the new binding at the end. -/
def dinsert {κ β : Type} [DecidableEq κ] (k : κ) (v : β) : List (κ × β) → List (κ × β)
  | [] => [(k, v)]
  | (k₂, v₂) :: rest => if k = k₂ then (k, v) :: rest else (k₂, v₂) :: dinsert k v rest

/-- Python `d.pop(k)` / `del d[k]`: remove the binding of a key. -/
def dremove {κ β : Type} [DecidableEq κ] (k : κ) : List (κ × β) → List (κ × β)
  | [] => []
  | (k₂, v₂) :: rest => if k = k₂ then rest else (k₂, v₂) :: dremove k rest

/-- Python `s.add(x)` on a set modelled as a duplicate-free list. -/
def setAdd (s : List String) (x : String) : List String :=
  if x ∈ s then s else s ++ [x]

/-- Python `s.discard(x)`: remove `x` if present, never raising. -/
def setDiscard (s : List String) (x : String) : List String :=
  s.filter (fun y => y ≠ x)

/-!
Decimal representation helpers.

Python's f-string `f"user{n} ..."` renders `n` in decimal, which the
embedding expresses with `Nat.repr`.  The lemmas below characterise
`Nat.repr`: its characters are digits (never a space) and it is
injective, which is what the display-name uniqueness argument needs.
-/

/-- The list of characters of the decimal representation of `n`,
defined by plain recursion (no fuel). -/
def reprDigits (n : Nat) : List Char :=
  if n < 10 then [Nat.digitChar n]
  else reprDigits (n / 10) ++ [Nat.digitChar (n % 10)]
termination_by n
decreasing_by
  exact Nat.div_lt_self (by omega) (by omega)

/-- Recover a `Nat` from a list of decimal digit characters. -/
def reprVal (l : List Char) : Nat :=
  l.foldl (fun a c => 10 * a + (c.toNat - 48)) 0

/-!
`handlers/user_handler.py`

`UserHandler` keeps `_users : socket_id → User`,
`_usernames : display_name → socket_id` and a monotone `_user_counter`
starting at 1.  `register_user` builds the display name with
`f"user{self._user_counter} ({username})"`, increments the counter and
writes both maps; it never rejects.  `unregister_user` pops the user
and its display-name entry.
-/

structure User where
  socket_id : String
  username : String
  display_name : String
  connected_at : Nat
  status : String
  current_room : String
  ip_address : String
deriving DecidableEq

structure UserHandlerState where
  users : List (String × User)
  usernames : List (String × String)
  user_counter : Nat
deriving DecidableEq

/-- `f"user{counter} ({username})"`. -/
def mkDisplayName (counter : Nat) (username : String) : String :=
  "user" ++ (Nat.repr counter ++ (" (" ++ (username ++ ")")))

def user_handler_init : UserHandlerState :=
  { users := [], usernames := [], user_counter := 1 }

def register_user (st : UserHandlerState) (socket_id username ip : String)
    (now : Nat) : User × UserHandlerState :=
  let display_name := mkDisplayName st.user_counter username
  let user : User :=
    { socket_id := socket_id, username := username,
      display_name := display_name, connected_at := now,
      status := "online", current_room := "general", ip_address := ip }
  (user,
    { users := dinsert socket_id user st.users,
      usernames := dinsert display_name socket_id st.usernames,
      user_counter := st.user_counter + 1 })

def unregister_user (st : UserHandlerState) (socket_id : String) :
    Option User × UserHandlerState :=
  match alookup socket_id st.users with
  | none => (none, st)
  | some user =>
    (some user,
      { users := dremove socket_id st.users,
        usernames := dremove user.display_name st.usernames,
        user_counter := st.user_counter })

def get_username (st : UserHandlerState) (socket_id : String) : Option String :=
  (alookup socket_id st.users).map (fun u => u.display_name)

/-- A register or unregister call, with the wall-clock value of the
register call passed explicitly. -/
inductive UserOp where
  | register (socket_id username ip : String) (now : Nat)
  | unregister (socket_id : String)

def applyUserOp (st : UserHandlerState) : UserOp → UserHandlerState
  | UserOp.register sid uname ip now => (register_user st sid uname ip now).2
  | UserOp.unregister sid => (unregister_user st sid).2

def runUserOps (ops : List UserOp) : UserHandlerState :=
  ops.foldl applyUserOp user_handler_init

/-- Display names of distinct live users differ. -/
def DistinctNames (st : UserHandlerState) : Prop :=
  List.Pairwise (fun p q : String × User =>
    p.2.display_name ≠ q.2.display_name) st.users

/-- Every live user carries a display name minted from an already-spent
counter value, and the live display names are pairwise distinct. -/
def UserInv (st : UserHandlerState) : Prop :=
  DistinctNames st ∧
    ∀ p ∈ st.users, ∃ k a, k < st.user_counter ∧
      p.2.display_name = mkDisplayName k a

/-!
`services/rooms.py`

Rooms hold a member set (usernames), an admin set and a message
history.  `RoomService` keeps a dict of rooms, a `user_id → room ids`
index and the configured history limit.  `RoomError` exceptions become
an error enumeration.  The message payload type is a parameter `α`
(Python stores untyped dicts).
-/

inductive RoomErr where
  | alreadyExists
  | notFound
  | full
  | cannotDeleteDefault
  | notAdmin
deriving DecidableEq

structure Room (α : Type) where
  id : String
  name : String
  created_by : String
  created_at : Nat
  is_private : Bool
  max_users : Nat
  description : String
  members : List String
  admins : List String
  message_history : List α
deriving DecidableEq

structure RoomServiceState (α : Type) where
  rooms : List (String × Room α)
  user_rooms : List (String × List String)
  history_limit : Nat
deriving DecidableEq

def create_room {α : Type} (svc : RoomServiceState α) (room_id name created_by : String)
    (is_private : Bool) (max_users : Nat) (description : String) (now : Nat) :
    Except RoomErr (Room α × RoomServiceState α) :=
  match alookup room_id svc.rooms with
  | some _ => Except.error RoomErr.alreadyExists
  | none =>
    let room : Room α :=
      { id := room_id, name := name, created_by := created_by,
        created_at := now, is_private := is_private, max_users := max_users,
        description := description, members := [],
        admins := setAdd [] created_by, message_history := [] }
    Except.ok (room, { svc with rooms := dinsert room_id room svc.rooms })

/-- `RoomService.__init__`: start empty and create the default room. -/
def room_service_init (α : Type) (default_room : String) (history_limit : Nat) :
    RoomServiceState α :=
  let empty : RoomServiceState α :=
    { rooms := [], user_rooms := [], history_limit := history_limit }
  match create_room empty "general" default_room "System" false 50
      "Welcome to the general chat room!" 0 with
  | Except.ok (_, svc) => svc
  | Except.error _ => empty

def join_room {α : Type} (svc : RoomServiceState α) (room_id user_id username : String) :
    Except RoomErr (Room α × RoomServiceState α) :=
  match alookup room_id svc.rooms with
  | none => Except.error RoomErr.notFound
  | some room =>
    if room.max_users ≤ room.members.length then Except.error RoomErr.full
    else
      let room₂ := { room with members := setAdd room.members username }
      let prev := match alookup user_id svc.user_rooms with
        | none => []
        | some s => s
      Except.ok (room₂,
        { svc with
          rooms := dinsert room_id room₂ svc.rooms
          user_rooms := dinsert user_id (setAdd prev room_id) svc.user_rooms })

def leave_room {α : Type} (svc : RoomServiceState α) (room_id user_id username : String) :
    Bool × RoomServiceState α :=
  match alookup room_id svc.rooms with
  | none => (false, svc)
  | some room =>
    let room₂ := { room with members := setDiscard room.members username }
    let ur := match alookup user_id svc.user_rooms with
      | none => svc.user_rooms
      | some s => dinsert user_id (setDiscard s room_id) svc.user_rooms
    (true,
      { svc with
        rooms := dinsert room_id room₂ svc.rooms
        user_rooms := ur })

/-- Python slice `l[-limit:]` for a nonnegative `limit`: the last
`limit` elements, except that `limit = 0` denotes the whole list. -/
def pySliceLast {α : Type} (limit : Nat) (l : List α) : List α :=
  if limit = 0 then l else l.drop (l.length - limit)

/-- The last `k` elements of a list. -/
def takeLast {α : Type} (k : Nat) (l : List α) : List α :=
  l.drop (l.length - k)

/-- The history update of `add_message_to_history` on one room history:
append, then trim to the last `history_limit` entries when the bound is
exceeded. -/
def histStep {α : Type} (limit : Nat) (h : List α) (m : α) : List α :=
  let h₂ := h ++ [m]
  if limit < h₂.length then pySliceLast limit h₂ else h₂

def add_message_to_history {α : Type} (svc : RoomServiceState α)
    (room_id : String) (message : α) : RoomServiceState α :=
  match alookup room_id svc.rooms with
  | none => svc
  | some room =>
    let room₂ :=
      { room with message_history :=
          histStep svc.history_limit room.message_history message }
    { svc with rooms := dinsert room_id room₂ svc.rooms }

def get_message_history {α : Type} (svc : RoomServiceState α)
    (room_id : String) (limit : Nat) : List α :=
  match alookup room_id svc.rooms with
  | none => []
  | some room =>
    if limit ≠ 0 then pySliceLast limit room.message_history
    else room.message_history

/-- Sequentially join a list of `(user_id, username)` pairs, failing on
the first failure. -/
def joinMany {α : Type} (svc : RoomServiceState α) (room_id : String) :
    List (String × String) → Except RoomErr (RoomServiceState α)
  | [] => Except.ok svc
  | (uid, uname) :: rest =>
    match join_room svc room_id uid uname with
    | Except.error e => Except.error e
    | Except.ok (_, svc₂) => joinMany svc₂ room_id rest

/-- Append a list of messages to a room one at a time. -/
def appendAll {α : Type} (svc : RoomServiceState α) (room_id : String)
    (msgs : List α) : RoomServiceState α :=
  msgs.foldl (fun s m => add_message_to_history s room_id m) svc

/-!
`handlers/message_handler.py`

The handler keeps one queue per scheduling algorithm.  `add_to_queue`
records a submission in all of them with one `time.time()` sample,
passed here explicitly.  The LRU queue is an ordered dict keyed by
`(sender, content)` with the timestamp as value; `process_lru` removes
and returns the key with the minimal timestamp (first minimal wins, as
Python's `min`).
-/

/-- Stable insertion sort by a boolean "should come no later than"
relation; models Python's stable `list.sort`. -/
def stableInsert {α : Type} (le : α → α → Bool) (x : α) : List α → List α
  | [] => [x]
  | y :: ys => if le y x then y :: stableInsert le x ys else x :: y :: ys

def stableSort {α : Type} (le : α → α → Bool) : List α → List α
  | [] => []
  | x :: xs => stableInsert le x (stableSort le xs)

/-- Python sort key `(-priority, timestamp)` compared lexicographically:
higher priority first, then older timestamp. -/
def prioLe (a b : Nat × Nat × String × String) : Bool :=
  decide (b.1 < a.1) || (decide (a.1 = b.1) && decide (a.2.1 ≤ b.2.1))

structure MessageHandlerState where
  max_message_length : Nat
  fcfs_queue : List (String × String × Nat)
  fifo_queue : List (String × String × Nat)
  lru_queue : List ((String × String) × Nat)
  priority_queue : List (Nat × Nat × String × String)
  round_robin_queue : List (String × String × Nat)
  current_algorithm : String
deriving DecidableEq

def message_handler_init (max_message_length : Nat) : MessageHandlerState :=
  { max_message_length := max_message_length, fcfs_queue := [],
    fifo_queue := [], lru_queue := [], priority_queue := [],
    round_robin_queue := [], current_algorithm := "FCFS" }

/-- Python `str.strip()`: drop leading and trailing whitespace. -/
def pyStrip (s : String) : String :=
  String.mk
    (((s.data.dropWhile Char.isWhitespace).reverse.dropWhile
      Char.isWhitespace).reverse)

def validate_message (st : MessageHandlerState) (message : String) :
    Bool × String :=
  if message = "" then (false, "Message cannot be empty")
  else if st.max_message_length < message.length then
    (false, "Message exceeds maximum length")
  else if pyStrip message = "" then (false, "Message cannot be empty")
  else (true, "")

structure FormattedMessage where
  id : String
  sender : String
  content : String
  room : String
  mtype : String
  encrypted : Bool
  timestamp : Nat
deriving DecidableEq

def format_message (username message room mtype : String) (encrypted : Bool)
    (now : Nat) : FormattedMessage :=
  { id := username ++ ("_" ++ Nat.repr now), sender := username,
    content := message, room := room, mtype := mtype,
    encrypted := encrypted, timestamp := now }

def add_to_queue (st : MessageHandlerState) (username message : String)
    (timestamp priority : Nat) : MessageHandlerState :=
  let msg_data := (username, message, timestamp)
  { st with
    fcfs_queue := st.fcfs_queue ++ [msg_data]
    fifo_queue := st.fifo_queue ++ [msg_data]
    lru_queue := dinsert (username, message) timestamp st.lru_queue
    priority_queue :=
      stableSort prioLe (st.priority_queue ++ [(priority, timestamp, username, message)])
    round_robin_queue := st.round_robin_queue ++ [msg_data] }

/-- `min(self.lru_queue, key=self.lru_queue.get)`: the first entry with
the minimal timestamp. -/
def lruSelect : List ((String × String) × Nat) →
    Option ((String × String) × Nat)
  | [] => none
  | e :: es =>
    some (es.foldl (fun best p => if p.2 < best.2 then p else best) e)

def process_lru (st : MessageHandlerState) :
    Option ((String × String) × MessageHandlerState) :=
  match lruSelect st.lru_queue with
  | none => none
  | some e =>
    some (e.1, { st with lru_queue := dremove e.1 st.lru_queue })

/-!
`handlers/private_message_handler.py`
-/

/-- `sorted([user1, user2])` for two strings: Python's stable sort keeps
the order unless the second element is strictly smaller. -/
def sorted2 (a b : String) : String × String :=
  if b < a then (b, a) else (a, b)

def get_conversation_id (user1 user2 : String) : String :=
  let users := sorted2 user1 user2
  "dm_" ++ (users.1 ++ ("_" ++ users.2))

/-!
`app.py`, `handle_message`

The socket payload is either a bare string or a dict with keys
`message`, `room` and `encrypt`.  `EncryptionService` has no
`encrypt_for_room` method, so `encryption.encrypt_for_room(room, msg)`
always raises `AttributeError`; the surrounding `try` logs and falls
through with the plaintext, leaving the `encrypt` flag untouched.
-/

inductive MessageData where
  | str (s : String)
  | dict (message room : String) (encrypt : Bool)

/-- The room-encryption call in `app.py`: `EncryptionService` defines no
`encrypt_for_room` attribute, so the call never produces a ciphertext —
it raises, which the embedding renders as `none`. -/
def encrypt_for_room (_room _message : String) : Option String :=
  none

def handle_message (uh : UserHandlerState) (rs : RoomServiceState FormattedMessage)
    (mh : MessageHandlerState) (sid : String) (data : MessageData) (now : Nat) :
    Option (FormattedMessage × RoomServiceState FormattedMessage) :=
  match get_username uh sid with
  | none => none
  | some username =>
    let parsed := match data with
      | MessageData.str s => (s, "general", false)
      | MessageData.dict m r e => (m, r, e)
    let msg := parsed.1
    let room := parsed.2.1
    let encrypt := parsed.2.2
    let valid := (validate_message mh msg).1
    if valid then
      let msg₂ :=
        if encrypt then
          match encrypt_for_room room msg with
          | some c => c
          | none => msg
        else msg
      let formatted := format_message username msg₂ room "text" encrypt now
      let rs₂ := add_message_to_history rs room formatted
      some (formatted, rs₂)
    else none

/-!
Supporting lemmas about the embedded operations.
-/

/-- The pure history evolution of a sequence of appends. -/
def histRun {α : Type} (limit : Nat) (h : List α) (msgs : List α) : List α :=
  msgs.foldl (histStep limit) h

/-!
Concrete states used to instantiate the claims: each is built by running
the embedded operations from the initial states.
-/

/-- The user handler after `register_user("s1", "alice")`. -/
def exUser1 : UserHandlerState :=
  (register_user user_handler_init "s1" "alice" "unknown" 0).2

/-- The user record created by `register_user("s1", "alice")`. -/
def exAlice : User :=
  (register_user user_handler_init "s1" "alice" "unknown" 0).1

/-- `exUser1` after a second `register_user` on the same socket id. -/
def exUser2 : UserHandlerState :=
  (register_user exUser1 "s1" "bob" "unknown" 0).2

/-- A room service with a fresh room `team` of capacity 1. -/
def exTeamSvc : RoomServiceState Nat :=
  match create_room (room_service_init Nat "General" 100) "team" "team"
      "System" false 1 "" 0 with
  | Except.ok (_, svc) => svc
  | Except.error _ => room_service_init Nat "General" 100

/-- The `team` room of `exTeamSvc` as created. -/
def exTeamRoom : Room Nat :=
  { id := "team", name := "team", created_by := "System", created_at := 0,
    is_private := false, max_users := 1, description := "", members := [],
    admins := ["System"], message_history := [] }

/-- The room returned by the successful join of `A` into `exTeamSvc`. -/
def exTeamRoomJoined : Room Nat :=
  match join_room exTeamSvc "team" "sA" "A" with
  | Except.ok (r, _) => r
  | Except.error _ => exTeamRoom

/-- `exTeamSvc` after user `A` joined `team` (the room is now full). -/
def exTeamFull : RoomServiceState Nat :=
  match join_room exTeamSvc "team" "sA" "A" with
  | Except.ok (_, svc) => svc
  | Except.error _ => exTeamSvc

/-- A room service with a room `team` of capacity 2 joined by `A`. -/
def exTeam2 : RoomServiceState Nat :=
  match create_room (room_service_init Nat "General" 100) "team" "team"
      "System" false 2 "" 0 with
  | Except.ok (_, svc) =>
    match join_room svc "team" "sA" "A" with
    | Except.ok (_, svc₂) => svc₂
    | Except.error _ => svc
  | Except.error _ => room_service_init Nat "General" 100

/-- The `team` room of `exTeam2` after `A` joined. -/
def exTeam2Room : Room Nat :=
  { id := "team", name := "team", created_by := "System", created_at := 0,
    is_private := false, max_users := 2, description := "", members := ["A"],
    admins := ["System"], message_history := [] }

/-- The `r` room of `exHistSvc`. -/
def exHistRoom : Room Nat :=
  { id := "r", name := "r", created_by := "System", created_at := 0,
    is_private := false, max_users := 50, description := "", members := [],
    admins := ["System"], message_history := [] }

/-- A room service whose `r` room has an empty history and limit 2. -/
def exHistSvc : RoomServiceState Nat :=
  { rooms := [("r", exHistRoom)], user_rooms := [], history_limit := 2 }

/-- The `r` room of `exGetSvc`. -/
def exGetRoom0 : Room Nat :=
  { id := "r", name := "r", created_by := "System", created_at := 0,
    is_private := false, max_users := 50, description := "", members := [],
    admins := ["System"], message_history := [1, 2, 3] }

/-- A room service whose `r` room already holds messages `[1, 2, 3]`. -/
def exGetSvc : RoomServiceState Nat :=
  { rooms := [("r", exGetRoom0)], user_rooms := [], history_limit := 100 }

/-- The message `handle_message` produces for the C1 failing input. -/
def exC1Msg : FormattedMessage :=
  format_message "user1 (alice)" "hi" "general" "text" true 5

/-- The room service `handle_message` starts from in the C1 evaluation. -/
def exC1Rs : RoomServiceState FormattedMessage :=
  room_service_init FormattedMessage "General" 100

/-!
Theorems about the embedded operations.
-/

theorem alookup_dinsert_self {κ β : Type} [DecidableEq κ] (k : κ) (v : β)
    (l : List (κ × β)) : alookup k (dinsert k v l) = some v := by
  induction l with
  | nil => simp [dinsert, alookup]
  | cons p rest ih =>
    obtain ⟨k₂, v₂⟩ := p
    by_cases h : k = k₂ <;> simp [dinsert, alookup, h, ih]

theorem alookup_dinsert_ne {κ β : Type} [DecidableEq κ] (k k₂ : κ) (v : β)
    (l : List (κ × β)) (h : k₂ ≠ k) :
    alookup k (dinsert k₂ v l) = alookup k l := by
  have h₀ : k ≠ k₂ := Ne.symm h
  induction l with
  | nil => simp [dinsert, alookup, h₀]
  | cons p rest ih =>
    obtain ⟨k₃, v₃⟩ := p
    by_cases h₂ : k₂ = k₃
    · subst h₂
      simp [dinsert, alookup, h₀]
    · by_cases h₃ : k = k₃ <;> simp [dinsert, alookup, h₂, h₃, ih]

theorem dinsert_eq_of_alookup {κ β : Type} [DecidableEq κ] (k : κ) (v : β)
    (l : List (κ × β)) (h : alookup k l = some v) : dinsert k v l = l := by
  induction l with
  | nil => simp [alookup] at h
  | cons p rest ih =>
    obtain ⟨k₂, v₂⟩ := p
    by_cases h₂ : k = k₂
    · subst h₂
      simp [alookup] at h
      simp [dinsert, h]
    · simp [alookup, h₂] at h
      simp [dinsert, h₂, ih h]

theorem mem_dinsert {κ β : Type} [DecidableEq κ] (k : κ) (v : β)
    (l : List (κ × β)) (p : κ × β) (hp : p ∈ dinsert k v l) :
    p = (k, v) ∨ p ∈ l := by
  induction l with
  | nil => simp [dinsert] at hp; simp [hp]
  | cons q rest ih =>
    obtain ⟨k₂, v₂⟩ := q
    by_cases h : k = k₂
    · subst h
      simp [dinsert] at hp
      rcases hp with hp | hp
      · left; simp [hp]
      · right; simp [hp]
    · simp [dinsert, h] at hp
      rcases hp with hp | hp
      · right; simp [hp]
      · rcases ih hp with h₂ | h₂
        · left; exact h₂
        · right; simp [h₂]

theorem mem_dremove {κ β : Type} [DecidableEq κ] (k : κ)
    (l : List (κ × β)) (p : κ × β) (hp : p ∈ dremove k l) : p ∈ l := by
  induction l with
  | nil => simp [dremove] at hp
  | cons q rest ih =>
    obtain ⟨k₂, v₂⟩ := q
    by_cases h : k = k₂
    · simp [dremove, h] at hp
      simp [hp]
    · simp [dremove, h] at hp
      rcases hp with hp | hp
      · simp [hp]
      · simp [ih hp]

theorem dremove_sublist {κ β : Type} [DecidableEq κ] (k : κ)
    (l : List (κ × β)) : (dremove k l).Sublist l := by
  induction l with
  | nil => simp [dremove]
  | cons q rest ih =>
    obtain ⟨k₂, v₂⟩ := q
    by_cases h : k = k₂
    · simp only [dremove, if_pos h]
      exact List.sublist_cons_self _ _
    · simp only [dremove, if_neg h]
      exact List.Sublist.cons₂ _ ih

theorem pairwise_dinsert {κ β : Type} [DecidableEq κ]
    (R : κ × β → κ × β → Prop) (k : κ) (v : β) (l : List (κ × β))
    (hl : List.Pairwise R l)
    (hnew : ∀ p ∈ l, R (k, v) p ∧ R p (k, v)) :
    List.Pairwise R (dinsert k v l) := by
  induction l with
  | nil => simp [dinsert]
  | cons q rest ih =>
    obtain ⟨k₂, v₂⟩ := q
    rcases hl with _ | ⟨hhead, hrest⟩
    by_cases h : k = k₂
    · subst h
      simp only [dinsert, if_pos rfl]
      exact List.Pairwise.cons
        (fun p hp => (hnew p (List.mem_cons_of_mem _ hp)).1) hrest
    · simp only [dinsert, if_neg h]
      refine List.Pairwise.cons (fun p hp => ?_) ?_
      · rcases mem_dinsert k v rest p hp with h₂ | h₂
        · subst h₂
          exact (hnew (k₂, v₂) (by simp)).2
        · exact hhead p h₂
      · exact ih hrest (fun p hp => hnew p (List.mem_cons_of_mem _ hp))

theorem keys_nodup_dinsert {κ β : Type} [DecidableEq κ] (k : κ) (v : β)
    (l : List (κ × β)) (h : (l.map Prod.fst).Nodup) :
    ((dinsert k v l).map Prod.fst).Nodup := by
  induction l with
  | nil => simp [dinsert]
  | cons q rest ih =>
    obtain ⟨k₂, v₂⟩ := q
    simp only [List.map_cons, List.nodup_cons] at h
    by_cases hk : k = k₂
    · subst hk
      simpa [dinsert] using h
    · simp only [dinsert, if_neg hk, List.map_cons, List.nodup_cons]
      constructor
      · intro hmem
        rcases List.mem_map.1 hmem with ⟨p, hp, hfst⟩
        rcases mem_dinsert k v rest p hp with h₂ | h₂
        · exact hk (by rw [← hfst, h₂])
        · exact h.1 (List.mem_map.2 ⟨p, h₂, hfst⟩)
      · exact ih h.2

theorem countP_dinsert_self {κ β : Type} [DecidableEq κ] (k : κ) (v : β)
    (l : List (κ × β)) (h : (l.map Prod.fst).Nodup) :
    (dinsert k v l).countP (fun p => decide (p.1 = k)) = 1 := by
  induction l with
  | nil => simp [dinsert, List.countP_cons]
  | cons q rest ih =>
    obtain ⟨k₂, v₂⟩ := q
    simp only [List.map_cons, List.nodup_cons] at h
    by_cases hk : k = k₂
    · subst hk
      simp only [dinsert, if_pos rfl, List.countP_cons, decide_eq_true_eq]
      have hzero : rest.countP (fun p => decide (p.1 = k)) = 0 := by
        rw [List.countP_eq_zero]
        intro p hp
        simp only [decide_eq_true_eq]
        intro hfst
        exact h.1 (List.mem_map.2 ⟨p, hp, hfst⟩)
      simp [hzero]
    · have hk₂ : k₂ ≠ k := fun h₂ => hk h₂.symm
      simp [dinsert, if_neg hk, List.countP_cons, hk₂, ih h.2]

theorem toDigitsCore_eq_reprDigits :
    ∀ (f n : Nat) (acc : List Char), n < f →
      Nat.toDigitsCore 10 f n acc = reprDigits n ++ acc := by
  intro f
  induction f with
  | zero => intro n acc h; omega
  | succ f ih =>
    intro n acc h
    by_cases hdiv : n / 10 = 0
    · have hn : n < 10 := by omega
      rw [reprDigits]
      simp only [Nat.toDigitsCore, hdiv, if_pos rfl, if_pos hn]
      rw [Nat.mod_eq_of_lt hn]
      simp
    · have hn : ¬ n < 10 := by
        intro hlt
        exact hdiv (Nat.div_eq_of_lt hlt)
      have hfuel : n / 10 < f := by
        have h₁ : n / 10 < n := Nat.div_lt_self (by omega) (by omega)
        omega
      simp only [Nat.toDigitsCore, hdiv, if_neg hdiv]
      rw [ih (n / 10) (Nat.digitChar (n % 10) :: acc) hfuel]
      conv_rhs => rw [reprDigits]
      simp [hn]

theorem repr_data_eq (n : Nat) : (Nat.repr n).data = reprDigits n := by
  have h := toDigitsCore_eq_reprDigits (n + 1) n [] (Nat.lt_succ_self n)
  simp only [Nat.repr, Nat.toDigits, List.asString]
  rw [h]
  simp

theorem digitChar_ne_space (n : Nat) (h : n < 10) : Nat.digitChar n ≠ ' ' := by
  interval_cases n <;> decide

theorem digitChar_toNat (n : Nat) (h : n < 10) :
    (Nat.digitChar n).toNat - 48 = n := by
  interval_cases n <;> decide

theorem mem_reprDigits_ne_space (n : Nat) : ∀ c ∈ reprDigits n, c ≠ ' ' := by
  induction n using Nat.strong_induction_on with
  | _ n ih =>
    intro c hc
    rw [reprDigits] at hc
    by_cases hn : n < 10
    · rw [if_pos hn] at hc
      simp at hc
      rw [hc]
      exact digitChar_ne_space n hn
    · rw [if_neg hn] at hc
      rcases List.mem_append.1 hc with h₂ | h₂
      · exact ih (n / 10) (Nat.div_lt_self (by omega) (by omega)) c h₂
      · simp at h₂
        rw [h₂]
        exact digitChar_ne_space (n % 10) (Nat.mod_lt n (by omega))

theorem reprVal_reprDigits (n : Nat) : reprVal (reprDigits n) = n := by
  induction n using Nat.strong_induction_on with
  | _ n ih =>
    rw [reprDigits]
    by_cases hn : n < 10
    · rw [if_pos hn]
      simp [reprVal, digitChar_toNat n hn]
    · rw [if_neg hn]
      have hdiv : n / 10 < n := Nat.div_lt_self (by omega) (by omega)
      have hmod := digitChar_toNat (n % 10) (Nat.mod_lt n (by omega))
      simp only [reprVal, List.foldl_append, List.foldl_cons, List.foldl_nil]
      have hih : reprVal (reprDigits (n / 10)) = n / 10 := ih (n / 10) hdiv
      simp only [reprVal] at hih
      rw [hih, hmod]
      omega

theorem nat_repr_injective (n m : Nat) (h : Nat.repr n = Nat.repr m) : n = m := by
  have h₂ : reprDigits n = reprDigits m := by
    rw [← repr_data_eq, ← repr_data_eq, h]
  calc n = reprVal (reprDigits n) := (reprVal_reprDigits n).symm
    _ = reprVal (reprDigits m) := by rw [h₂]
    _ = m := reprVal_reprDigits m

/-- Cancellation through a separator character: if two lists avoiding a
character `c` are followed by `c`, equality of the concatenations forces
equality of the prefixes. -/
theorem append_sep_cancel {α : Type} (c : α) :
    ∀ (xs ys t t₂ : List α), xs ++ c :: t = ys ++ c :: t₂ →
      c ∉ xs → c ∉ ys → xs = ys := by
  intro xs
  induction xs with
  | nil =>
    intro ys t t₂ h hx hy
    cases ys with
    | nil => rfl
    | cons y ys₂ =>
      simp only [List.nil_append, List.cons_append, List.cons.injEq] at h
      exact absurd (by simp [h.1]) hy
  | cons x xs₂ ih =>
    intro ys t t₂ h hx hy
    cases ys with
    | nil =>
      simp only [List.nil_append, List.cons_append, List.cons.injEq] at h
      exact absurd (by simp [h.1]) hx
    | cons y ys₂ =>
      simp only [List.cons_append, List.cons.injEq] at h
      have hxs : x ∉ ({c} : Set α) := by simp; intro hc; exact hx (by simp [hc])
      have h₂ := ih ys₂ t t₂ h.2 (fun hc => hx (List.mem_cons_of_mem _ hc))
        (fun hc => hy (List.mem_cons_of_mem _ hc))
      rw [h.1, h₂]

theorem mkDisplayName_counter_inj (k k₂ : Nat) (a a₂ : String)
    (h : mkDisplayName k a = mkDisplayName k₂ a₂) : k = k₂ := by
  have hd := congrArg String.data h
  simp only [mkDisplayName] at hd
  have happ : ∀ (s t : String), (s ++ t).data = s.data ++ t.data := fun s t => rfl
  simp only [happ] at hd
  have hcancel := List.append_cancel_left hd
  simp only [List.cons_append] at hcancel
  have hrepr : (Nat.repr k).data = (Nat.repr k₂).data := by
    refine append_sep_cancel ' ' _ _ _ _ hcancel ?_ ?_
    · rw [repr_data_eq]
      intro hc
      exact mem_reprDigits_ne_space k ' ' hc rfl
    · rw [repr_data_eq]
      intro hc
      exact mem_reprDigits_ne_space k₂ ' ' hc rfl
  have : Nat.repr k = Nat.repr k₂ := by
    cases hk : Nat.repr k with
    | mk d =>
      cases hk₂ : Nat.repr k₂ with
      | mk d₂ =>
        rw [hk, hk₂] at hrepr
        simp only [String.data] at hrepr
        rw [hrepr]
  exact nat_repr_injective k k₂ this

theorem userInv_init : UserInv user_handler_init := by
  constructor
  · simp [DistinctNames, user_handler_init]
  · simp [user_handler_init]

theorem userInv_register (st : UserHandlerState) (sid uname ip : String)
    (now : Nat) (h : UserInv st) :
    UserInv (register_user st sid uname ip now).2 := by
  obtain ⟨hdist, htag⟩ := h
  constructor
  · refine pairwise_dinsert _ sid _ st.users hdist ?_
    intro p hp
    obtain ⟨k, a, hk, hname⟩ := htag p hp
    have hne : mkDisplayName st.user_counter uname ≠ p.2.display_name := by
      rw [hname]
      intro hcontra
      have := mkDisplayName_counter_inj _ _ _ _ hcontra
      omega
    exact ⟨hne, fun hc => hne hc.symm⟩
  · intro p hp
    rcases mem_dinsert _ _ _ _ hp with h₂ | h₂
    · refine ⟨st.user_counter, uname, ?_, ?_⟩
      · simp [register_user]
      · rw [h₂]
    · obtain ⟨k, a, hk, hname⟩ := htag p h₂
      exact ⟨k, a, by simp [register_user]; omega, hname⟩

theorem userInv_unregister (st : UserHandlerState) (sid : String)
    (h : UserInv st) : UserInv (unregister_user st sid).2 := by
  obtain ⟨hdist, htag⟩ := h
  unfold unregister_user
  cases halo : alookup sid st.users with
  | none => exact ⟨hdist, htag⟩
  | some user =>
    constructor
    · exact List.Pairwise.sublist (dremove_sublist sid st.users) hdist
    · intro p hp
      exact htag p (mem_dremove sid st.users p hp)

theorem userInv_run (ops : List UserOp) : ∀ st, UserInv st →
    UserInv (ops.foldl applyUserOp st) := by
  induction ops with
  | nil => intro st h; exact h
  | cons op rest ih =>
    intro st h
    refine ih _ ?_
    cases op with
    | register sid uname ip now => exact userInv_register st sid uname ip now h
    | unregister sid => exact userInv_unregister st sid h

theorem takeLast_all {α : Type} (k : Nat) (l : List α) (h : l.length ≤ k) :
    takeLast k l = l := by
  unfold takeLast
  rw [Nat.sub_eq_zero_of_le h, List.drop_zero]

theorem length_takeLast {α : Type} (k : Nat) (l : List α) (h : k ≤ l.length) :
    (takeLast k l).length = k := by
  unfold takeLast
  rw [List.length_drop]
  omega

theorem takeLast_cons {α : Type} (k : Nat) (x : α) (l : List α)
    (h : k ≤ l.length) : takeLast k (x :: l) = takeLast k l := by
  unfold takeLast
  have h₂ : (x :: l).length - k = (l.length - k) + 1 := by
    simp only [List.length_cons]
    omega
  rw [h₂, List.drop_succ_cons]

theorem pySliceLast_eq_takeLast {α : Type} (k : Nat) (l : List α) (h : k ≠ 0) :
    pySliceLast k l = takeLast k l := by
  simp [pySliceLast, takeLast, h]

theorem takeLast_append_left {α : Type} (k : Nat) (p q : List α)
    (hk : k ≤ q.length) : takeLast k (p ++ q) = takeLast k q := by
  unfold takeLast
  have h₂ : (p ++ q).length - k = p.length + (q.length - k) := by
    rw [List.length_append]
    omega
  rw [h₂, List.drop_append]

theorem takeLast_idem_append {α : Type} (k : Nat) (l r : List α)
    (hk : k ≤ l.length) :
    takeLast k (l ++ r) = takeLast k (takeLast k l ++ r) := by
  conv_lhs => rw [← List.take_append_drop (l.length - k) l, List.append_assoc]
  have hdrop : takeLast k l = l.drop (l.length - k) := rfl
  rw [← hdrop]
  refine takeLast_append_left k _ _ ?_
  rw [List.length_append, length_takeLast k l hk]
  omega

theorem histRun_spec {α : Type} (limit : Nat) (hpos : 1 ≤ limit) :
    ∀ (msgs h : List α), h.length ≤ limit →
      histRun limit h msgs =
        if (h ++ msgs).length ≤ limit then h ++ msgs
        else takeLast limit (h ++ msgs) := by
  intro msgs
  induction msgs with
  | nil =>
    intro h hlen
    simp [histRun, hlen]
  | cons m ms ih =>
    intro h hlen
    have hstep : histRun limit h (m :: ms) =
        histRun limit (histStep limit h m) ms := rfl
    have happlen : (h ++ [m]).length = h.length + 1 := by simp
    by_cases hc : (h ++ [m]).length ≤ limit
    · have hstep₂ : histStep limit h m = h ++ [m] := by
        unfold histStep
        simp only [if_neg (by omega : ¬ limit < (h ++ [m]).length)]
      rw [hstep, hstep₂, ih _ hc]
      have hre : (h ++ [m]) ++ ms = h ++ m :: ms := by simp
      rw [hre]
    · have hL : h.length = limit := by omega
      have hTlen : (takeLast limit (h ++ [m])).length = limit :=
        length_takeLast limit _ (by omega)
      have hstep₂ : histStep limit h m = takeLast limit (h ++ [m]) := by
        unfold histStep
        rw [if_pos (by omega : limit < (h ++ [m]).length)]
        exact pySliceLast_eq_takeLast limit _ (by omega)
      rw [hstep, hstep₂, ih _ (le_of_eq hTlen)]
      have hglobal : ¬ (h ++ m :: ms).length ≤ limit := by
        simp only [List.length_append, List.length_cons]
        omega
      rw [if_neg hglobal]
      have hsplit : h ++ m :: ms = (h ++ [m]) ++ ms := by simp
      have hrhs : takeLast limit (h ++ m :: ms) =
          takeLast limit (takeLast limit (h ++ [m]) ++ ms) := by
        rw [hsplit]
        exact takeLast_idem_append limit _ ms (by omega)
      rw [hrhs]
      by_cases hms : (takeLast limit (h ++ [m]) ++ ms).length ≤ limit
      · have hnil : ms = [] := by
          rw [List.length_append, hTlen] at hms
          have hms₂ : ms.length = 0 := by omega
          exact List.eq_nil_of_length_eq_zero hms₂
        subst hnil
        rw [if_pos hms]
        simp only [List.append_nil]
        exact (takeLast_all limit _ (le_of_eq hTlen)).symm
      · rw [if_neg hms]

theorem appendAll_spec {α : Type} (room_id : String) :
    ∀ (msgs : List α) (svc : RoomServiceState α) (room : Room α),
      alookup room_id svc.rooms = some room →
      alookup room_id (appendAll svc room_id msgs).rooms =
          some { room with
                 message_history :=
                   histRun svc.history_limit room.message_history msgs } ∧
        (appendAll svc room_id msgs).history_limit = svc.history_limit := by
  intro msgs
  induction msgs with
  | nil =>
    intro svc room hroom
    exact ⟨by simpa [appendAll, histRun] using hroom, rfl⟩
  | cons m ms ih =>
    intro svc room hroom
    have hstep : appendAll svc room_id (m :: ms) =
        appendAll (add_message_to_history svc room_id m) room_id ms := rfl
    have hadd : add_message_to_history svc room_id m =
        { svc with
          rooms :=
            dinsert room_id
              ({ room with
                 message_history :=
                   histStep svc.history_limit room.message_history m })
              svc.rooms } := by
      unfold add_message_to_history
      rw [hroom]
    have hlook : alookup room_id (add_message_to_history svc room_id m).rooms =
        some { room with
               message_history :=
                 histStep svc.history_limit room.message_history m } := by
      rw [hadd]
      exact alookup_dinsert_self _ _ _
    have hlim : (add_message_to_history svc room_id m).history_limit =
        svc.history_limit := by
      rw [hadd]
    obtain ⟨h₁, h₂⟩ := ih (add_message_to_history svc room_id m) _ hlook
    rw [hstep]
    refine ⟨?_, by rw [h₂, hlim]⟩
    rw [h₁, hlim]
    rfl

theorem joinMany_spec {α : Type} (room_id : String) :
    ∀ (us : List (String × String)) (svc : RoomServiceState α) (room : Room α),
      alookup room_id svc.rooms = some room →
      (us.map Prod.snd).Nodup →
      (∀ u ∈ us.map Prod.snd, u ∉ room.members) →
      room.members.length + us.length ≤ room.max_users →
      ∃ svc₂, joinMany svc room_id us = Except.ok svc₂ ∧
        alookup room_id svc₂.rooms =
          some { room with members := room.members ++ us.map Prod.snd } := by
  intro us
  induction us with
  | nil =>
    intro svc room hroom _ _ _
    exact ⟨svc, rfl, by simpa using hroom⟩
  | cons p us ih =>
    intro svc room hroom hnodup hfresh hlen
    obtain ⟨uid, uname⟩ := p
    simp only [List.map_cons, List.nodup_cons] at hnodup
    have hmem : uname ∉ room.members := by
      refine hfresh uname ?_
      simp
    have hcap : ¬ room.max_users ≤ room.members.length := by
      simp only [List.length_cons] at hlen
      omega
    have hjoin : join_room svc room_id uid uname =
        Except.ok ({ room with members := room.members ++ [uname] },
          { svc with
            rooms := dinsert room_id
              { room with members := room.members ++ [uname] } svc.rooms
            user_rooms := dinsert uid
              (setAdd (match alookup uid svc.user_rooms with
                | none => []
                | some s => s) room_id) svc.user_rooms }) := by
      unfold join_room
      rw [hroom]
      simp only [if_neg hcap]
      rw [show setAdd room.members uname = room.members ++ [uname] from by
        simp [setAdd, hmem]]
    have hroom₂ : alookup room_id
        ({ svc with
          rooms := dinsert room_id
            { room with members := room.members ++ [uname] } svc.rooms
          user_rooms := dinsert uid
            (setAdd (match alookup uid svc.user_rooms with
              | none => []
              | some s => s) room_id) svc.user_rooms } :
          RoomServiceState α).rooms =
        some { room with members := room.members ++ [uname] } :=
      alookup_dinsert_self _ _ _
    obtain ⟨svc₂, hrun, hfinal⟩ := ih _ _ hroom₂
      hnodup.2
      (by
        intro u hu
        simp only [List.mem_append, List.mem_singleton]
        rintro (hc | hc)
        · exact hfresh u (List.mem_cons_of_mem _ hu) hc
        · exact hnodup.1 (hc ▸ hu))
      (by
        simp only [List.length_cons] at hlen
        simp only [List.length_append, List.length_singleton,
          List.length_cons, List.length_nil]
        omega)
    refine ⟨svc₂, ?_, ?_⟩
    · simp only [joinMany, hjoin]
      exact hrun
    · rw [hfinal]
      simp [List.append_assoc]

theorem lruSelect_foldl_spec (es : List ((String × String) × Nat)) :
    ∀ e, (es.foldl (fun best p => if p.2 < best.2 then p else best) e) ∈ e :: es ∧
      ∀ p ∈ e :: es,
        (es.foldl (fun best p => if p.2 < best.2 then p else best) e).2 ≤ p.2 := by
  induction es with
  | nil =>
    intro e
    refine ⟨by simp, ?_⟩
    intro p hp
    simp at hp
    simp [hp]
  | cons q qs ih =>
    intro e
    have hfold : (q :: qs).foldl (fun best p => if p.2 < best.2 then p else best) e =
        qs.foldl (fun best p => if p.2 < best.2 then p else best)
          (if q.2 < e.2 then q else e) := rfl
    obtain ⟨hmem, hle⟩ := ih (if q.2 < e.2 then q else e)
    constructor
    · rw [hfold]
      rcases List.mem_cons.1 hmem with h₂ | h₂
      · rw [h₂]
        by_cases hq : q.2 < e.2 <;> simp [hq]
      · simp [h₂]
    · intro p hp
      rw [hfold]
      have hstart : (if q.2 < e.2 then q else e).2 ≤ e.2 ∧
          (if q.2 < e.2 then q else e).2 ≤ q.2 := by
        by_cases hq : q.2 < e.2 <;> simp [hq] <;> omega
      rcases List.mem_cons.1 hp with h₂ | h₂
      · rw [h₂]
        exact le_trans (hle _ (by simp)) hstart.1
      · rcases List.mem_cons.1 h₂ with h₃ | h₃
        · rw [h₃]
          exact le_trans (hle _ (by simp)) hstart.2
        · exact hle p (List.mem_cons_of_mem _ h₃)

end ChatApp



namespace ChatApp

/-!
Claim theorems.
-/

theorem sorted2_comm (a b : String) : sorted2 a b = sorted2 b a := by
  unfold sorted2
  rcases lt_trichotomy a b with h | h | h
  · rw [if_neg (lt_asymm h), if_pos h]
  · subst h
    rfl
  · rw [if_pos h, if_neg (lt_asymm h)]

/-- C9: for all display names `A` and `B`,
`conversationId(A, B) = conversationId(B, A)` — the derived conversation
identity is independent of argument order. -/
theorem conversation_id_symm (user1 user2 : String) :
    get_conversation_id user1 user2 = get_conversation_id user2 user1 := by
  unfold get_conversation_id
  rw [sorted2_comm]

/-- C2: for any sequence of register and unregister calls, no two
concurrently-registered users ever have the same display name, even when
two registrations request the identical raw username.  (`runUserOps`
applies an arbitrary call sequence to the initial handler;
`DistinctNames` states pairwise distinctness of the live display
names.) -/
theorem display_names_unique (ops : List UserOp) :
    DistinctNames (runUserOps ops) :=
  (userInv_run ops user_handler_init userInv_init).1

/-- C6 counterexample: in `exTeamFull` the room `team` exists and user
`B` is not a member, yet `leave_room` returns `true` — the claim's
"returns false exactly when the room or the membership did not exist"
fails on the membership half. -/
theorem leave_room_nonmember_counterexample :
    (alookup "team" exTeamFull.rooms).map (fun r => r.members) = some ["A"] ∧
      "B" ∉ (["A"] : List String) ∧
      (leave_room exTeamFull "team" "sB" "B").1 = true :=
  ⟨rfl, by decide, rfl⟩

/-- C6 amended: `leave_room` never raises and returns `false` exactly
when the room does not exist; for an existing room it returns `true`
even when the user was not a member. -/
theorem leave_room_false_iff_room_absent {α : Type} (svc : RoomServiceState α)
    (rid uid uname : String) :
    (leave_room svc rid uid uname).1 = false ↔ alookup rid svc.rooms = none := by
  cases h : alookup rid svc.rooms <;> simp [leave_room, h]

/-- C10: `get_message_history` returns `[]` for a nonexistent room, the
whole stored history when `limit = 0`, and the most recent `limit`
entries for a positive `limit`. -/
theorem get_message_history_spec {α : Type} :
    (∀ (svc : RoomServiceState α) (rid : String) (limit : Nat),
        alookup rid svc.rooms = none → get_message_history svc rid limit = []) ∧
    (∀ (svc : RoomServiceState α) (rid : String) (room : Room α),
        alookup rid svc.rooms = some room →
        get_message_history svc rid 0 = room.message_history) ∧
    (∀ (svc : RoomServiceState α) (rid : String) (room : Room α) (limit : Nat),
        alookup rid svc.rooms = some room → 0 < limit →
        get_message_history svc rid limit = takeLast limit room.message_history) := by
  refine ⟨?_, ?_, ?_⟩
  · intro svc rid limit h
    simp [get_message_history, h]
  · intro svc rid room h
    simp [get_message_history, h]
  · intro svc rid room limit h hpos
    have hne : limit ≠ 0 := hpos.ne'
    simp [get_message_history, h, hne, pySliceLast_eq_takeLast limit _ hne]

/-- C10 witness: the three branches of `get_message_history_spec`
evaluated on `exGetSvc`, whose room `r` stores `[1, 2, 3]`. -/
theorem get_message_history_spec_witness :
    (alookup "nope" exGetSvc.rooms = none ∧
      get_message_history exGetSvc "nope" 5 = []) ∧
    (alookup "r" exGetSvc.rooms = some exGetRoom0 ∧
      get_message_history exGetSvc "r" 0 = exGetRoom0.message_history) ∧
    (0 < 2 ∧
      get_message_history exGetSvc "r" 2 = takeLast 2 exGetRoom0.message_history) :=
  ⟨⟨rfl, (@get_message_history_spec Nat).1 exGetSvc "nope" 5 rfl⟩,
   ⟨rfl, (@get_message_history_spec Nat).2.1 exGetSvc "r" exGetRoom0 rfl⟩,
   ⟨by decide, (@get_message_history_spec Nat).2.2 exGetSvc "r" exGetRoom0 2 rfl
      (by decide)⟩⟩

/-- C3: a successful `join_room` never makes the member set exceed
`max_users` (and stores the returned room), and from an empty room a
sequence of `max_users` joins of users with distinct names all succeed,
after which a join of any further distinct user fails with the
room-full error. -/
theorem join_room_capacity {α : Type} :
    (∀ (svc : RoomServiceState α) (rid uid uname : String) (r : Room α)
        (svc₂ : RoomServiceState α),
        join_room svc rid uid uname = Except.ok (r, svc₂) →
        r.members.length ≤ r.max_users ∧ alookup rid svc₂.rooms = some r) ∧
    (∀ (svc : RoomServiceState α) (rid : String) (room : Room α)
        (us : List (String × String)),
        alookup rid svc.rooms = some room → room.members = [] →
        (us.map Prod.snd).Nodup → us.length = room.max_users →
        ∃ svc₂, joinMany svc rid us = Except.ok svc₂ ∧
          ∀ uid₂ uname₂, uname₂ ∉ us.map Prod.snd →
            join_room svc₂ rid uid₂ uname₂ = Except.error RoomErr.full) := by
  constructor
  · intro svc rid uid uname r svc₂ h
    unfold join_room at h
    cases hlook : alookup rid svc.rooms with
    | none => simp [hlook] at h
    | some room =>
      simp only [hlook] at h
      by_cases hcap : room.max_users ≤ room.members.length
      · rw [if_pos hcap] at h
        simp at h
      · rw [if_neg hcap] at h
        simp only [Except.ok.injEq, Prod.mk.injEq] at h
        obtain ⟨hr, hsvc⟩ := h
        subst hr
        subst hsvc
        constructor
        · show (setAdd room.members uname).length ≤ room.max_users
          unfold setAdd
          by_cases hm : uname ∈ room.members
          · simp only [if_pos hm]
            omega
          · simp only [if_neg hm, List.length_append, List.length_singleton]
            omega
        · exact alookup_dinsert_self _ _ _
  · intro svc rid room us hroom hemp hnodup hlen
    obtain ⟨svc₂, hrun, hfinal⟩ := joinMany_spec rid us svc room hroom hnodup
      (by
        intro u hu
        rw [hemp]
        simp)
      (by
        rw [hemp]
        simp [hlen])
    refine ⟨svc₂, hrun, ?_⟩
    intro uid₂ uname₂ hnot
    have hcap₂ : room.max_users ≤ (room.members ++ us.map Prod.snd).length := by
      rw [hemp]
      simp [hlen]
    unfold join_room
    simp only [hfinal]
    rw [if_pos hcap₂]

/-- C3 witness: in `exTeamSvc` (room `team`, capacity 1) the single join
of `A` succeeds within capacity, and any further distinct user is
rejected with the room-full error. -/
theorem join_room_capacity_witness :
    (join_room exTeamSvc "team" "sA" "A" = Except.ok (exTeamRoomJoined, exTeamFull) ∧
      exTeamRoomJoined.members.length ≤ exTeamRoomJoined.max_users ∧
      alookup "team" exTeamFull.rooms = some exTeamRoomJoined) ∧
    (alookup "team" exTeamSvc.rooms = some exTeamRoom ∧ exTeamRoom.members = [] ∧
      ([("sA", "A")].map Prod.snd).Nodup ∧
      [("sA", "A")].length = exTeamRoom.max_users ∧
      ∃ svc₂, joinMany exTeamSvc "team" [("sA", "A")] = Except.ok svc₂ ∧
        ∀ uid₂ uname₂, uname₂ ∉ [("sA", "A")].map Prod.snd →
          join_room svc₂ "team" uid₂ uname₂ = Except.error RoomErr.full) := by
  constructor
  · obtain ⟨h₁, h₂⟩ := (@join_room_capacity Nat).1 exTeamSvc "team" "sA" "A"
      exTeamRoomJoined exTeamFull rfl
    exact ⟨rfl, h₁, h₂⟩
  · exact ⟨rfl, rfl, by decide, rfl,
      (@join_room_capacity Nat).2 exTeamSvc "team" exTeamRoom [("sA", "A")]
        rfl rfl (by decide) rfl⟩

/-- C5 counterexample: in `exTeamFull` the room `team` is at capacity
(`max_users = 1`) and `A` is already a member, yet joining again fails
with the room-full error instead of succeeding — the claim's
"regardless of occupancy, including at maxMembers" is false. -/
theorem join_room_at_capacity_member_counterexample :
    (alookup "team" exTeamFull.rooms).map (fun r => r.members) = some ["A"] ∧
      (alookup "team" exTeamFull.rooms).map (fun r => r.max_users) = some 1 ∧
      join_room exTeamFull "team" "sA" "A" = Except.error RoomErr.full :=
  ⟨rfl, rfl, rfl⟩

/-- C5 amended: `join_room` is idempotent for a current member only
while the room is below capacity — when the member count is below
`max_users` and the membership index already records the user, the call
succeeds and leaves the whole service state (member set and membership
index included) unchanged; at capacity it fails with the room-full
error even for current members. -/
theorem join_room_idempotent_below_capacity {α : Type}
    (svc : RoomServiceState α) (rid uid uname : String) (room : Room α)
    (ur : List String)
    (hroom : alookup rid svc.rooms = some room)
    (hmem : uname ∈ room.members)
    (hcap : room.members.length < room.max_users)
    (hur : alookup uid svc.user_rooms = some ur)
    (hin : rid ∈ ur) :
    join_room svc rid uid uname = Except.ok (room, svc) := by
  unfold join_room
  simp only [hroom, hur]
  rw [if_neg (not_le.2 hcap)]
  have h₁ : setAdd room.members uname = room.members := by simp [setAdd, hmem]
  have h₂ : setAdd ur rid = ur := by simp [setAdd, hin]
  rw [h₁, h₂]
  have h₃ : ({ room with members := room.members } : Room α) = room := rfl
  rw [h₃, dinsert_eq_of_alookup rid room svc.rooms hroom,
    dinsert_eq_of_alookup uid ur svc.user_rooms hur]

/-- C5 witness: in `exTeam2` (capacity 2, member `A`, index
`sA → [team]`) re-joining `A` succeeds and changes nothing. -/
theorem join_room_idempotent_witness :
    (alookup "team" exTeam2.rooms = some exTeam2Room ∧
      "A" ∈ exTeam2Room.members ∧
      exTeam2Room.members.length < exTeam2Room.max_users ∧
      alookup "sA" exTeam2.user_rooms = some ["team"] ∧
      "team" ∈ (["team"] : List String)) ∧
    join_room exTeam2 "team" "sA" "A" = Except.ok (exTeam2Room, exTeam2) :=
  ⟨⟨rfl, by decide, by decide, rfl, by decide⟩,
    join_room_idempotent_below_capacity exTeam2 "team" "sA" "A" exTeam2Room
      ["team"] rfl (by decide) (by decide) rfl (by decide)⟩

/-- C4 counterexample: with the configured history limit 0, appending
one message (`N = 1 > 0 = limit`) leaves a history of length 1, not
`limit = 0` — Python's `history[-0:]` is the whole list, so the trim
never removes anything at limit 0. -/
theorem history_limit_zero_counterexample :
    (room_service_init Nat "General" 0).history_limit = 0 ∧
      (alookup "general" (add_message_to_history (room_service_init Nat "General" 0)
        "general" 7).rooms).map (fun r => r.message_history) = some [7] ∧
      (alookup "general" (add_message_to_history (room_service_init Nat "General" 0)
        "general" 7).rooms).map (fun r => r.message_history.length) = some 1 :=
  ⟨rfl, rfl, rfl⟩

/-- C4 amended: for a positive configured history limit, after appending
`N > limit` messages to a room with empty history the stored history is
exactly the most recent `limit` messages in append order (oldest first),
and its length is exactly `limit`. -/
theorem history_bound {α : Type} (svc : RoomServiceState α) (rid : String)
    (room : Room α) (msgs : List α)
    (hpos : 1 ≤ svc.history_limit)
    (hroom : alookup rid svc.rooms = some room)
    (hempty : room.message_history = [])
    (hlen : svc.history_limit < msgs.length) :
    (alookup rid (appendAll svc rid msgs).rooms).map
        (fun r => r.message_history) = some (takeLast svc.history_limit msgs) ∧
      (takeLast svc.history_limit msgs).length = svc.history_limit := by
  obtain ⟨h₁, _⟩ := appendAll_spec rid msgs svc room hroom
  have hrun : histRun svc.history_limit room.message_history msgs =
      takeLast svc.history_limit msgs := by
    rw [hempty, histRun_spec svc.history_limit hpos msgs [] (by simp),
      List.nil_append, if_neg (by omega)]
  constructor
  · rw [h₁]
    simp [hrun]
  · exact length_takeLast _ _ (le_of_lt hlen)

/-- C4 witness: `exHistSvc` has limit 2; appending `[1, 2, 3]` to the
empty room `r` retains exactly `[2, 3]`. -/
theorem history_bound_witness :
    (1 ≤ exHistSvc.history_limit ∧
      alookup "r" exHistSvc.rooms = some exHistRoom ∧
      exHistRoom.message_history = [] ∧
      exHistSvc.history_limit < [1, 2, 3].length) ∧
    ((alookup "r" (appendAll exHistSvc "r" [1, 2, 3]).rooms).map
        (fun r => r.message_history) =
          some (takeLast exHistSvc.history_limit [1, 2, 3]) ∧
      (takeLast exHistSvc.history_limit [1, 2, 3]).length =
        exHistSvc.history_limit) :=
  ⟨⟨by decide, rfl, rfl, by decide⟩,
    history_bound exHistSvc "r" exHistRoom [1, 2, 3] (by decide) rfl rfl
      (by decide)⟩

/-- C7 counterexample: re-registering connection `s1` is neither
rejected nor a no-op — the user record is replaced (the display name
changes from `user1 (alice)` to `user2 (bob)`) and the stale
display-name entry `user1 (alice) → s1` remains in the username map. -/
theorem register_rereg_counterexample :
    get_username exUser1 "s1" = some "user1 (alice)" ∧
      get_username exUser2 "s1" = some "user2 (bob)" ∧
      alookup "user1 (alice)" exUser2.usernames = some "s1" ∧
      alookup "user2 (bob)" exUser2.usernames = some "s1" :=
  ⟨rfl, rfl, rfl, rfl⟩

/-- C7 amended: `register_user` never fails; re-registering an
already-registered connection id silently replaces its user record with
a fresh user carrying the next counter-minted display name and adds that
name to the username map, while the previous display-name entry stays
behind unchanged (stale). -/
theorem register_rereg_replaces (st : UserHandlerState) (sid uname ip : String)
    (now k : Nat) (a : String) (u : User)
    (hu : alookup sid st.users = some u)
    (hname : u.display_name = mkDisplayName k a)
    (hk : k < st.user_counter) :
    (register_user st sid uname ip now).1.display_name =
        mkDisplayName st.user_counter uname ∧
      alookup sid (register_user st sid uname ip now).2.users =
        some (register_user st sid uname ip now).1 ∧
      alookup u.display_name (register_user st sid uname ip now).2.usernames =
        alookup u.display_name st.usernames ∧
      alookup (mkDisplayName st.user_counter uname)
        (register_user st sid uname ip now).2.usernames = some sid := by
  have hne : mkDisplayName st.user_counter uname ≠ u.display_name := by
    rw [hname]
    intro hcontra
    have := mkDisplayName_counter_inj _ _ _ _ hcontra
    omega
  refine ⟨rfl, alookup_dinsert_self _ _ _, ?_, alookup_dinsert_self _ _ _⟩
  exact alookup_dinsert_ne u.display_name (mkDisplayName st.user_counter uname)
    sid st.usernames hne

/-- C7 witness: the amended behaviour evaluated on the `s1`/`alice`
then `s1`/`bob` double registration. -/
theorem register_rereg_replaces_witness :
    (alookup "s1" exUser1.users = some exAlice ∧
      exAlice.display_name = mkDisplayName 1 "alice" ∧
      1 < exUser1.user_counter) ∧
    ((register_user exUser1 "s1" "bob" "unknown" 0).1.display_name =
        mkDisplayName exUser1.user_counter "bob" ∧
      alookup "s1" (register_user exUser1 "s1" "bob" "unknown" 0).2.users =
        some (register_user exUser1 "s1" "bob" "unknown" 0).1 ∧
      alookup exAlice.display_name
          (register_user exUser1 "s1" "bob" "unknown" 0).2.usernames =
        alookup exAlice.display_name exUser1.usernames ∧
      alookup (mkDisplayName exUser1.user_counter "bob")
          (register_user exUser1 "s1" "bob" "unknown" 0).2.usernames =
        some "s1") :=
  ⟨⟨rfl, rfl, by decide⟩,
    register_rereg_replaces exUser1 "s1" "bob" "unknown" 0 1 "alice" exAlice
      rfl rfl (by decide)⟩

/-- C8: under the LRU policy, a second submission of the same
`(sender, content)` pair before dispatch leaves exactly one pending
admission carrying the later timestamp, and each dispatch removes and
returns the pending admission with the oldest timestamp. -/
theorem lru_queue_policy :
    (∀ (mh : MessageHandlerState) (u m : String) (t₁ t₂ p₁ p₂ : Nat),
        (mh.lru_queue.map Prod.fst).Nodup →
        (add_to_queue (add_to_queue mh u m t₁ p₁) u m t₂ p₂).lru_queue.countP
            (fun e => decide (e.1 = (u, m))) = 1 ∧
          alookup (u, m)
            (add_to_queue (add_to_queue mh u m t₁ p₁) u m t₂ p₂).lru_queue =
            some t₂) ∧
    (∀ mh : MessageHandlerState, mh.lru_queue ≠ [] →
        ∃ k t mh₂, process_lru mh = some (k, mh₂) ∧ (k, t) ∈ mh.lru_queue ∧
          (∀ e ∈ mh.lru_queue, t ≤ e.2) ∧
          mh₂.lru_queue = dremove k mh.lru_queue) := by
  constructor
  · intro mh u m t₁ t₂ p₁ p₂ hnodup
    have hq : (add_to_queue (add_to_queue mh u m t₁ p₁) u m t₂ p₂).lru_queue =
        dinsert (u, m) t₂ (dinsert (u, m) t₁ mh.lru_queue) := rfl
    rw [hq]
    exact ⟨countP_dinsert_self (u, m) t₂ _
        (keys_nodup_dinsert (u, m) t₁ _ hnodup),
      alookup_dinsert_self _ _ _⟩
  · intro mh hne
    cases hq : mh.lru_queue with
    | nil => exact absurd hq hne
    | cons e es =>
      obtain ⟨hmem, hle⟩ := lruSelect_foldl_spec es e
      refine ⟨(es.foldl (fun best p => if p.2 < best.2 then p else best) e).1,
        (es.foldl (fun best p => if p.2 < best.2 then p else best) e).2,
        { mh with
          lru_queue :=
            dremove (es.foldl (fun best p => if p.2 < best.2 then p else best) e).1
              (e :: es) }, ?_, ?_, ?_, rfl⟩
      · unfold process_lru
        simp only [hq, lruSelect]
      · exact hmem
      · intro p hp
        exact hle p hp

/-- C8 witness: both halves of `lru_queue_policy` evaluated from the
fresh handler: `alice` submits `hi` at times 1 and 2, and a dispatch
from the single-entry queue. -/
theorem lru_queue_policy_witness :
    (((message_handler_init 1000).lru_queue.map Prod.fst).Nodup ∧
      (add_to_queue (add_to_queue (message_handler_init 1000) "alice" "hi" 1 1)
          "alice" "hi" 2 1).lru_queue.countP
          (fun e => decide (e.1 = ("alice", "hi"))) = 1 ∧
      alookup ("alice", "hi")
          (add_to_queue (add_to_queue (message_handler_init 1000) "alice" "hi" 1 1)
            "alice" "hi" 2 1).lru_queue = some 2) ∧
    ((add_to_queue (message_handler_init 1000) "alice" "hi" 1 1).lru_queue ≠ [] ∧
      ∃ k t mh₂,
        process_lru (add_to_queue (message_handler_init 1000) "alice" "hi" 1 1) =
            some (k, mh₂) ∧
          (k, t) ∈ (add_to_queue (message_handler_init 1000) "alice" "hi" 1 1).lru_queue ∧
          (∀ e ∈ (add_to_queue (message_handler_init 1000) "alice" "hi" 1 1).lru_queue,
            t ≤ e.2) ∧
          mh₂.lru_queue = dremove k
            (add_to_queue (message_handler_init 1000) "alice" "hi" 1 1).lru_queue) :=
  ⟨⟨by decide,
    lru_queue_policy.1 (message_handler_init 1000) "alice" "hi" 1 2 1 1 (by decide)⟩,
   ⟨by decide,
    lru_queue_policy.2 (add_to_queue (message_handler_init 1000) "alice" "hi" 1 1)
      (by decide)⟩⟩

/-- C1 (code-bug evaluation): the caller requests encryption and the
encryption step fails (`EncryptionService` has no `encrypt_for_room`
attribute, so it always fails); the message is still formatted,
recorded in the room history and delivered with its original plaintext
content — but with `encrypted = true`, the caller's requested flag,
not `false` as the specification states. -/
theorem handle_message_encrypt_failure_eval :
    handle_message exUser1 exC1Rs (message_handler_init 1000) "s1"
        (MessageData.dict "hi" "general" true) 5 =
      some (exC1Msg, add_message_to_history exC1Rs "general" exC1Msg) ∧
      encrypt_for_room "general" "hi" = none ∧
      exC1Msg.content = "hi" ∧
      exC1Msg.encrypted = true ∧
      (alookup "general" (add_message_to_history exC1Rs "general" exC1Msg).rooms).map
        (fun r => r.message_history) = some [exC1Msg] :=
  ⟨rfl, rfl, rfl, rfl, rfl⟩

end ChatApp
